import Mathlib

/-!
A verification development for the Urban Dictionary scraper
(src/data/urban_dictionary_scraper.py) of the evolving-language-tracker
repository.

Python strings are modelled as lists of characters (`PyStr`), with
executable models of the Python string methods the scraper uses
(`str.lower`, `str.strip`, `str.replace`, `str.split`, `str.join`,
`str.isdigit`, `int(...)`).  All definitions are translated from the
source; each carries a comment pointing at the lines it embeds.
-/

/-- Python `str` modelled as a list of characters. -/
abbrev PyStr := List Char

/-- Python `str.lower()` (ASCII case folding, which covers the scraper's
attribution and term strings). -/
def pyLower (s : PyStr) : PyStr := s.map Char.toLower

/-- Python `str.strip()` with no argument: remove leading and trailing
whitespace. -/
def pyStrip (s : PyStr) : PyStr :=
  ((s.dropWhile Char.isWhitespace).reverse.dropWhile Char.isWhitespace).reverse

/-- The dedup key normalization used at both dedup scopes:
`word.lower().strip()` (urban_dictionary_scraper.py lines 201 and 331). -/
def normKey (w : PyStr) : PyStr := pyStrip (pyLower w)

/-- Iteration core of `pyReplace`; `fuel` bounds the scanning steps (each
consumes at least one character, so `fuel = s.length` is enough). -/
def pyReplaceGo (pat rep : PyStr) : Nat → PyStr → PyStr
  | 0, s => s
  | fuel + 1, s =>
    match s with
    | [] => []
    | c :: rest =>
      if ¬ pat.isEmpty ∧ pat.isPrefixOf (c :: rest) then
        rep ++ pyReplaceGo pat rep fuel ((c :: rest).drop pat.length)
      else
        c :: pyReplaceGo pat rep fuel rest

/-- Python `str.replace(old, new)`: replace every non-overlapping occurrence,
scanning left to right.  The scraper only calls it with non-empty `old`;
for an empty `old` this model returns the string unchanged. -/
def pyReplace (pat rep s : PyStr) : PyStr := pyReplaceGo pat rep s.length s

/-- Iteration core of `pySplit` for separator `c0 :: sepRest`, accumulating
the current piece in reverse; `fuel` bounds the scanning steps. -/
def pySplitGo (c0 : Char) (sepRest : List Char) : Nat → PyStr → PyStr →
    List PyStr
  | 0, _, cur => [cur.reverse]
  | fuel + 1, s, cur =>
    match s with
    | [] => [cur.reverse]
    | c :: rest =>
      if (c0 :: sepRest).isPrefixOf (c :: rest) then
        cur.reverse :: pySplitGo c0 sepRest fuel (rest.drop sepRest.length) []
      else
        pySplitGo c0 sepRest fuel rest (c :: cur)

/-- Python `str.split(sep)` for a non-empty separator: split on every
non-overlapping occurrence, keeping empty pieces.  (Python raises on an
empty separator; the scraper only splits on `"by "` and `" "`.) -/
def pySplit (sep : PyStr) (s : PyStr) : List PyStr :=
  match sep with
  | [] => [s]
  | c0 :: sepRest => pySplitGo c0 sepRest s.length s []

/-- Python `sep.join(parts)`. -/
def pyJoin (sep : PyStr) (parts : List PyStr) : PyStr :=
  List.intercalate sep parts

/-- Python `str.isdigit()`: non-empty and every character a decimal digit
(restricted to ASCII digits, which is what vote counts contain). -/
def pyIsDigit (s : PyStr) : Bool := !s.isEmpty && s.all Char.isDigit

/-- Numeric value of a list of decimal digit characters. -/
def digitsVal (s : PyStr) : Nat :=
  s.foldl (fun a c => 10 * a + (c.toNat - 48)) 0

/-- Python `int(str)`: strip whitespace, allow one optional sign, then
require a non-empty run of decimal digits; `none` models `ValueError`.
(Digit-group underscores accepted by Python 3.6+ are not modelled; no
input in this development contains one.) -/
def pyInt (s : PyStr) : Option Int :=
  match pyStrip s with
  | [] => none
  | '-' :: ds => if pyIsDigit ds then some (-(digitsVal ds : Int)) else none
  | '+' :: ds => if pyIsDigit ds then some (digitsVal ds : Int) else none
  | ds => if pyIsDigit ds then some (digitsVal ds : Int) else none

/-- Iteration core of decimal rendering; `fuel` bounds the number of
divisions by 10 (any `fuel > n` is enough). -/
def decReprGo : Nat → Nat → PyStr
  | 0, _ => []
  | fuel + 1, n =>
    if n < 10 then [Nat.digitChar n]
    else decReprGo fuel (n / 10) ++ [Nat.digitChar (n % 10)]

/-- Python `str(n)` for a natural number: decimal digits, most significant
first. -/
def decRepr (n : Nat) : PyStr := decReprGo (n + 1) n

theorem decReprGo_fuel : ∀ f1 f2 n, n < f1 → n < f2 →
    decReprGo f1 n = decReprGo f2 n := by
  intro f1
  induction f1 with
  | zero => intro f2 n h1 _; omega
  | succ f ih =>
    intro f2 n h1 h2
    cases f2 with
    | zero => omega
    | succ f2' =>
      by_cases hn : n < 10
      · simp [decReprGo, hn]
      · have hd : n / 10 < n := Nat.div_lt_self (by omega) (by omega)
        simp only [decReprGo, hn, if_neg, not_false_iff]
        rw [ih f2' (n / 10) (by omega) (by omega)]

/-- The defining recurrence of `decRepr`. -/
theorem decRepr_eq (n : Nat) :
    decRepr n = if n < 10 then [Nat.digitChar n]
      else decRepr (n / 10) ++ [Nat.digitChar (n % 10)] := by
  by_cases hn : n < 10
  · simp [decRepr, decReprGo, hn]
  · have hd : n / 10 < n := Nat.div_lt_self (by omega) (by omega)
    rw [if_neg hn]
    have hL : decReprGo (n + 1) n =
        decReprGo n (n / 10) ++ [Nat.digitChar (n % 10)] := by
      simp [decReprGo, hn]
    unfold decRepr
    rw [hL, decReprGo_fuel n (n / 10 + 1) (n / 10) (by omega) (by omega)]

/-- Python `str(i)` for an integer (vote counts may be negative, see the
analysis of `extract_votes`). -/
def pyIntStr (i : Int) : PyStr :=
  if i < 0 then '-' :: decRepr i.natAbs else decRepr i.natAbs

/-- One scraped record, with exactly the keys built at
urban_dictionary_scraper.py lines 229-239 (`example` is named
`exampleText` because `example` is reserved in Lean). -/
structure Entry where
  word : PyStr
  definition : PyStr
  exampleText : PyStr
  contributor : PyStr
  date : PyStr
  upvotes : Int
  downvotes : Int
  page : Nat
  scraped_date : PyStr
deriving DecidableEq

/-- The dedup key of an entry: `entry["word"].lower().strip()` (line 331). -/
def entryKey (e : Entry) : PyStr := normKey e.word

/-- The orchestrator's mutable state: `global_seen_words` (a set, modelled
as the list of keys in insertion order) and `all_entries`
(urban_dictionary_scraper.py lines 300-301). -/
structure RunState where
  seen : List PyStr
  acc : List Entry
deriving DecidableEq

/-- The empty state the run starts from (lines 300-301). -/
def initState : RunState := ⟨[], []⟩

/-- Admission of one candidate entry, embedding the body of the loop at
lines 330-336: keep the entry iff its normalized key is not yet in
`global_seen_words`, adding the key when accepting. -/
def accept (st : RunState) (e : Entry) : RunState :=
  if entryKey e ∈ st.seen then st
  else ⟨st.seen ++ [entryKey e], st.acc ++ [e]⟩

/-- Admission of one page's result list (the `for entry in page_entries`
loop, lines 330-336). -/
def acceptList (st : RunState) (es : List Entry) : RunState := es.foldl accept st

/-- Admission of one chunk: the futures' page result lists are merged in
completion order, each passing through the global filter (lines 323-339). -/
def acceptPages (st : RunState) (pages : List (List Entry)) : RunState :=
  pages.foldl acceptList st

/-- The whole run's accumulation over its chunks, processed sequentially
(the chunk loop at lines 311-349). -/
def runChunks (st : RunState) (chunks : List (List (List Entry))) : RunState :=
  chunks.foldl acceptPages st

/-- The invariants the admission loop maintains, relative to the list `p`
of candidates processed so far. -/
def AcceptInv (p : List Entry) (st : RunState) : Prop :=
  st.seen = st.acc.map entryKey ∧
  (st.acc.map entryKey).Nodup ∧
  (∀ c ∈ p, entryKey c ∈ st.seen) ∧
  (∀ e ∈ st.acc, p.find? (fun c => entryKey c == entryKey e) = some e)

theorem acceptInv_init : AcceptInv [] initState := by
  refine ⟨rfl, List.nodup_nil, ?_, ?_⟩ <;> simp [initState]

theorem acceptInv_step {p : List Entry} {st : RunState} (h : AcceptInv p st)
    (e : Entry) : AcceptInv (p ++ [e]) (accept st e) := by
  obtain ⟨hseen, hnodup, hmem, hfind⟩ := h
  by_cases hk : entryKey e ∈ st.seen
  · have hadm : accept st e = st := by simp [accept, hk]
    rw [hadm]
    refine ⟨hseen, hnodup, ?_, ?_⟩
    · intro c hc
      rcases List.mem_append.1 hc with hc | hc
      · exact hmem c hc
      · simp only [List.mem_singleton] at hc
        exact hc ▸ hk
    · intro x hx
      rw [List.find?_append, hfind x hx]
      rfl
  · have hadm : accept st e =
        ⟨st.seen ++ [entryKey e], st.acc ++ [e]⟩ := by simp [accept, hk]
    have hfindp : p.find? (fun c => entryKey c == entryKey e) = none := by
      rw [List.find?_eq_none]
      intro c hc hbeq
      exact absurd (eq_of_beq hbeq ▸ hmem c hc) hk
    rw [hadm]
    refine ⟨?_, ?_, ?_, ?_⟩
    · simp [hseen]
    · simp only [List.map_append, List.map_cons, List.map_nil]
      rw [List.nodup_append]
      refine ⟨hnodup, List.nodup_singleton _, ?_⟩
      intro a ha hb
      simp only [List.mem_singleton] at hb
      subst hb
      exact hk (hseen ▸ ha)
    · intro c hc
      rcases List.mem_append.1 hc with hc | hc
      · exact List.mem_append.2 (Or.inl (hmem c hc))
      · simp only [List.mem_singleton] at hc
        subst hc
        exact List.mem_append.2 (Or.inr (by simp))
    · intro x hx
      rcases List.mem_append.1 hx with hx | hx
      · rw [List.find?_append, hfind x hx]
        rfl
      · simp only [List.mem_singleton] at hx
        subst hx
        rw [List.find?_append, hfindp]
        simp [List.find?]

theorem acceptInv_list {es : List Entry} : ∀ {p : List Entry} {st : RunState},
    AcceptInv p st → AcceptInv (p ++ es) (acceptList st es) := by
  induction es with
  | nil => intro p st h; simpa [acceptList] using h
  | cons e es ih =>
    intro p st h
    have h1 := acceptInv_step h e
    have h2 := @ih (p ++ [e]) (accept st e) h1
    simpa [acceptList, List.foldl_cons, List.append_assoc] using h2

/-- Folding admission over nested chunk/page structure is folding over the
flattened candidate sequence. -/
theorem runChunks_eq_acceptList (st : RunState)
    (chunks : List (List (List Entry))) :
    runChunks st chunks = acceptList st chunks.flatten.flatten := by
  unfold runChunks acceptPages acceptList
  rw [List.foldl_flatten, List.foldl_flatten]

theorem acceptInv_runChunks (chunks : List (List (List Entry))) :
    AcceptInv chunks.flatten.flatten (runChunks initState chunks) := by
  rw [runChunks_eq_acceptList]
  simpa using @acceptInv_list chunks.flatten.flatten [] initState acceptInv_init

/-- C1: for every run and every nesting of candidate records into chunks and
pages, the accumulated record set has at most one record per normalized term
(term lowercased and whitespace-trimmed), and each retained record is the
first-encountered candidate with its normalized term, regardless of the
order, page, or chunk in which duplicates arrive. -/
theorem c1_global_dedup_unique_terms (chunks : List (List (List Entry))) :
    ((runChunks initState chunks).acc.map entryKey).Nodup ∧
    ∀ e ∈ (runChunks initState chunks).acc,
      chunks.flatten.flatten.find? (fun c => entryKey c == entryKey e) =
        some e :=
  ⟨(acceptInv_runChunks chunks).2.1, (acceptInv_runChunks chunks).2.2.2⟩

/-- A record whose term is `"Lit"`. -/
def entryLit : Entry :=
  ⟨"Lit".data, "exciting".data, [], [], [], 0, 0, 1, []⟩

/-- A record whose term is `"lit "` (trailing space), arriving in a later
chunk. -/
def entryLitSpaced : Entry :=
  ⟨"lit ".data, "other".data, [], [], [], 0, 0, 2, []⟩

theorem c1_global_dedup_unique_terms_witness :
    ((runChunks initState [[[entryLit]], [[entryLitSpaced]]]).acc.map
        entryKey).Nodup ∧
    ([[[entryLit]], [[entryLitSpaced]]] :
        List (List (List Entry))).flatten.flatten.find?
        (fun c => entryKey c == entryKey entryLit) = some entryLit ∧
    (runChunks initState [[[entryLit]], [[entryLitSpaced]]]).acc =
      [entryLit] :=
  ⟨(c1_global_dedup_unique_terms [[[entryLit]], [[entryLitSpaced]]]).1,
   (c1_global_dedup_unique_terms [[[entryLit]], [[entryLitSpaced]]]).2
     entryLit (by decide),
   by decide⟩

theorem accept_len_eq {st : RunState} (e : Entry)
    (h : st.seen.length = st.acc.length) :
    (accept st e).seen.length = (accept st e).acc.length := by
  unfold accept
  split <;> simp [h]

theorem acceptList_len_eq {es : List Entry} : ∀ {st : RunState},
    st.seen.length = st.acc.length →
    (acceptList st es).seen.length = (acceptList st es).acc.length := by
  induction es with
  | nil => intro st h; simpa [acceptList] using h
  | cons e es ih =>
    intro st h
    simpa [acceptList, List.foldl_cons] using ih (accept_len_eq e h)

/-- C10: every accepted record adds exactly one normalized term to the
global seen set, so from any point of the run at which the accepted-record
count equals the seen-term count (in particular from the empty initial
state), the two counts remain equal ever after; hence the end-of-run
counters behind `Total entries collected` and `Total unique words`
coincide. -/
theorem c10_accepted_equals_seen (chunks : List (List (List Entry)))
    (st : RunState) (h : st.seen.length = st.acc.length) :
    (runChunks st chunks).seen.length = (runChunks st chunks).acc.length := by
  rw [runChunks_eq_acceptList]
  exact acceptList_len_eq h

theorem c10_accepted_equals_seen_witness :
    (runChunks initState [[[entryLit]], [[entryLitSpaced]]]).seen.length =
      (runChunks initState [[[entryLit]], [[entryLitSpaced]]]).acc.length :=
  c10_accepted_equals_seen [[[entryLit]], [[entryLitSpaced]]] initState rfl

/-- A Python exception caught by an `except Exception` clause. -/
inductive PyExc where
  | exc : PyExc
deriving DecidableEq

/-- The retry loop of `scrape_page_with_retry` (urban_dictionary_scraper.py
lines 145-158), with the page extraction abstracted as a per-attempt
behavior `extract`.  `remaining` counts the iterations the
`for attempt in range(max_retries)` loop still has at attempt index
`attempt` (so `remaining = maxRetries - attempt` at every call); when the
loop range is exhausted the function falls off and returns Python `None`,
modelled as `Except.ok none`.  A successful attempt returns its entry list;
an attempt that raises is caught, and on the last attempt `[]` is
returned.  The second component counts extraction invocations. -/
def retryGo (extract : Nat → Except PyExc (List Entry)) (maxRetries : Nat) :
    Nat → Nat → Except PyExc (Option (List Entry)) × Nat
  | 0, _ => (Except.ok none, 0)
  | r + 1, attempt =>
    match extract attempt with
    | Except.ok entries => (Except.ok (some entries), 1)
    | Except.error _ =>
      if attempt < maxRetries - 1 then
        let p := retryGo extract maxRetries r (attempt + 1)
        (p.1, p.2 + 1)
      else (Except.ok (some []), 1)

/-- `scrape_page_with_retry` (lines 145-158): run the retry loop from
attempt 0.  First component: the returned value (`Except.error` would be a
propagated exception, `Except.ok none` the implicit Python `None`);
second component: how many times the extraction was invoked. -/
def scrape_page_with_retry (extract : Nat → Except PyExc (List Entry))
    (maxRetries : Nat) : Except PyExc (Option (List Entry)) × Nat :=
  retryGo extract maxRetries maxRetries 0

theorem retryGo_alwaysFail (extract : Nat → Except PyExc (List Entry))
    (maxRetries : Nat) (hfail : ∀ n, (extract n).isOk = false) :
    ∀ remaining attempt, remaining + attempt = maxRetries → 1 ≤ remaining →
    retryGo extract maxRetries remaining attempt =
      (Except.ok (some []), remaining) := by
  intro remaining
  induction remaining with
  | zero => intro attempt _ h1; omega
  | succ r ih =>
    intro attempt hsum _
    cases hx : extract attempt with
    | ok l =>
      have := hfail attempt
      rw [hx] at this
      simp [Except.isOk, Except.toBool] at this
    | error err =>
      by_cases hlt : attempt < maxRetries - 1
      · have hr1 : 1 ≤ r := by omega
        have := ih (attempt + 1) (by omega) hr1
        simp only [retryGo, hx, hlt, if_pos, this]
      · have hr0 : r = 0 := by omega
        subst hr0
        simp only [retryGo, hx, hlt, if_neg, not_false_iff]

theorem retryGo_no_exception (extract : Nat → Except PyExc (List Entry))
    (maxRetries : Nat) :
    ∀ remaining attempt,
    (retryGo extract maxRetries remaining attempt).1.isOk = true := by
  intro remaining
  induction remaining with
  | zero => intro attempt; rfl
  | succ r ih =>
    intro attempt
    cases hx : extract attempt with
    | ok l => simp [retryGo, hx, Except.isOk, Except.toBool]
    | error err =>
      by_cases hlt : attempt < maxRetries - 1
      · simp only [retryGo, hx, hlt, if_pos]
        exact ih (attempt + 1)
      · simp [retryGo, hx, hlt, Except.isOk, Except.toBool]

/-- C2: for every per-attempt extraction behavior that raises on every
invocation and every positive retry bound (default 3),
`scrape_page_with_retry` invokes the extraction exactly `maxRetries` times
and returns the empty list; and for any extraction behavior whatsoever its
result is never a propagated exception. -/
theorem c2_retry_exhaustion_contract
    (extract : Nat → Except PyExc (List Entry)) (maxRetries : Nat) :
    ((∀ n, (extract n).isOk = false) → 1 ≤ maxRetries →
      scrape_page_with_retry extract maxRetries =
        (Except.ok (some []), maxRetries)) ∧
    ∀ err, (scrape_page_with_retry extract maxRetries).1 ≠
      Except.error err := by
  constructor
  · intro hfail hmr
    unfold scrape_page_with_retry
    exact retryGo_alwaysFail extract maxRetries hfail maxRetries 0
      (by omega) hmr
  · intro err hcontra
    have := retryGo_no_exception extract maxRetries maxRetries 0
    unfold scrape_page_with_retry at hcontra
    rw [hcontra] at this
    simp [Except.isOk, Except.toBool] at this

theorem c2_retry_exhaustion_contract_witness :
    scrape_page_with_retry (fun _ => Except.error PyExc.exc) 3 =
      (Except.ok (some []), 3) ∧
    ∀ err, (scrape_page_with_retry (fun _ => Except.error PyExc.exc) 3).1 ≠
      Except.error err :=
  ⟨(c2_retry_exhaustion_contract (fun _ => Except.error PyExc.exc) 3).1
      (fun _ => rfl) (by omega),
   (c2_retry_exhaustion_contract (fun _ => Except.error PyExc.exc) 3).2⟩

/-- Iteration core of Python `range(·, stop, step)`: emit `s` while
`s < stop`, advancing by `step`.  `fuel` bounds the number of iterations
(any `fuel ≥ stop - s` is enough when `step ≥ 1`). -/
def pyRangeGo (stop step : Nat) : Nat → Nat → List Nat
  | 0, _ => []
  | fuel + 1, s =>
    if s < stop then s :: pyRangeGo stop step fuel (s + step) else []

/-- Python `range(start, stop, step)` over naturals, for `step ≥ 1`
(Python raises on step 0; the scraper's steps are 1 and `chunk_size`). -/
def pythonRange (start stop step : Nat) : List Nat :=
  if step = 0 then [] else pyRangeGo stop step (stop - start) start

/-- `page_numbers = list(range(args.start, args.end + 1))`
(urban_dictionary_scraper.py line 307). -/
def pageNumbers (start e : Nat) : List Nat := pythonRange start (e + 1) 1

/-- One chunk's page slice (lines 311-313):
`chunk_end = min(chunk_start + chunk_size, len(page_numbers))` and
`chunk_pages = page_numbers[chunk_start:chunk_end]`. -/
def chunkSlice (l : List Nat) (cs csize : Nat) : List Nat :=
  (l.drop cs).take (min (cs + csize) l.length - cs)

/-- All chunk slices of the run, one per
`chunk_start in range(0, len(page_numbers), args.chunk_size)` (line 311). -/
def chunksOf (l : List Nat) (csize : Nat) : List (List Nat) :=
  (pythonRange 0 l.length csize).map (fun cs => chunkSlice l cs csize)

theorem pyRangeGo_fuel (stop step : Nat) (hstep : 1 ≤ step) :
    ∀ f1 f2 s, stop - s ≤ f1 → stop - s ≤ f2 →
    pyRangeGo stop step f1 s = pyRangeGo stop step f2 s := by
  intro f1
  induction f1 with
  | zero =>
    intro f2 s h1 _
    cases f2 with
    | zero => rfl
    | succ f2' =>
      have hs : ¬ s < stop := by omega
      simp [pyRangeGo, hs]
  | succ f ih =>
    intro f2 s h1 h2
    cases f2 with
    | zero =>
      have hs : ¬ s < stop := by omega
      simp [pyRangeGo, hs]
    | succ f2' =>
      by_cases hs : s < stop
      · simp only [pyRangeGo, hs, if_pos]
        rw [ih f2' (s + step) (by omega) (by omega)]
      · simp [pyRangeGo, hs]

/-- The defining recurrence of `pythonRange` for a positive step. -/
theorem pythonRange_eq (start stop step : Nat) (hstep : 1 ≤ step) :
    pythonRange start stop step =
      if start < stop then start :: pythonRange (start + step) stop step
      else [] := by
  have hnz : ¬ step = 0 := by omega
  unfold pythonRange
  simp only [hnz, if_neg, not_false_iff]
  cases hd : stop - start with
  | zero =>
    have hs : ¬ start < stop := by omega
    simp [pyRangeGo_fuel stop step hstep 0 (stop - start) start (by omega)
      (by omega), hs, pyRangeGo]
  | succ k =>
    have hs : start < stop := by omega
    simp only [pyRangeGo, hs, if_pos]
    rw [pyRangeGo_fuel stop step hstep k (stop - (start + step)) (start + step)
      (by omega) (by omega)]

theorem pythonRange_mem (step : Nat) (hstep : 1 ≤ step) :
    ∀ stop s x, x ∈ pythonRange s stop step → s ≤ x ∧ x < stop := by
  intro stop
  have key : ∀ d s x, stop - s ≤ d → x ∈ pythonRange s stop step →
      s ≤ x ∧ x < stop := by
    intro d
    induction d with
    | zero =>
      intro s x hle hx
      rw [pythonRange_eq s stop step hstep] at hx
      have hs : ¬ s < stop := by omega
      simp [hs] at hx
    | succ d ih =>
      intro s x hle hx
      rw [pythonRange_eq s stop step hstep] at hx
      by_cases hs : s < stop
      · simp only [hs, if_pos, List.mem_cons] at hx
        rcases hx with hx | hx
        · omega
        · have := ih (s + step) x (by omega) hx
          omega
      · simp [hs] at hx
  intro s x hx
  exact key (stop - s) s x (by omega) hx

/-- Shifting the start of a positive-step range by one step. -/
theorem pythonRange_shift (step : Nat) (hstep : 1 ≤ step) :
    ∀ stop s, pythonRange (s + step) stop step =
      (pythonRange s (stop - step) step).map (· + step) := by
  intro stop
  have key : ∀ d s, stop - s ≤ d → pythonRange (s + step) stop step =
      (pythonRange s (stop - step) step).map (· + step) := by
    intro d
    induction d with
    | zero =>
      intro s hle
      rw [pythonRange_eq (s + step) stop step hstep,
        pythonRange_eq s (stop - step) step hstep]
      have h1 : ¬ s + step < stop := by omega
      have h2 : ¬ s < stop - step := by omega
      simp [h1, h2]
    | succ d ih =>
      intro s hle
      rw [pythonRange_eq (s + step) stop step hstep,
        pythonRange_eq s (stop - step) step hstep]
      by_cases h2 : s < stop - step
      · have h1 : s + step < stop := by omega
        simp only [h1, h2, if_pos, List.map_cons]
        rw [ih (s + step) (by omega)]
      · have h1 : ¬ s + step < stop := by omega
        simp [h1, h2]
  intro s
  exact key (stop - s) s (by omega)

theorem take_min_length {α : Type} (l : List α) (a : Nat) :
    l.take (min a l.length) = l.take a := by
  by_cases h : a ≤ l.length
  · rw [Nat.min_eq_left h]
  · rw [Nat.min_eq_right (by omega), List.take_length,
      List.take_of_length_le (by omega)]

/-- The chunk slices concatenate back to the whole page list: the chunking
loop partitions the page range with no overlaps and no gaps, in ascending
order. -/
theorem chunksOf_flatten (csize : Nat) (hcs : 1 ≤ csize) :
    ∀ l : List Nat, (chunksOf l csize).flatten = l := by
  suffices key : ∀ n l, l.length ≤ n → (chunksOf l csize).flatten = l by
    intro l
    exact key l.length l (le_refl _)
  intro n
  induction n with
  | zero =>
    intro l hl
    have h0 : l = [] := by
      cases l with
      | nil => rfl
      | cons a t => simp at hl
    subst h0
    have hr : pythonRange 0 0 csize = [] := by
      rw [pythonRange_eq _ _ _ hcs]
      simp
    unfold chunksOf
    rw [List.length_nil, hr]
    rfl
  | succ n ih =>
    intro l hl
    by_cases hpos : 0 < l.length
    · unfold chunksOf
      rw [pythonRange_eq 0 l.length csize hcs, if_pos hpos]
      simp only [List.map_cons, List.flatten_cons]
      have hslice0 : chunkSlice l 0 csize = l.take csize := by
        unfold chunkSlice
        simp only [List.drop_zero, Nat.zero_add, Nat.sub_zero]
        exact take_min_length l csize
      have hshift : pythonRange (0 + csize) l.length csize =
          (pythonRange 0 (l.length - csize) csize).map (· + csize) :=
        pythonRange_shift csize hcs l.length 0
      rw [hslice0, hshift, List.map_map]
      have hcong : ∀ cs ∈ pythonRange 0 (l.length - csize) csize,
          ((fun cs => chunkSlice l cs csize) ∘ (· + csize)) cs =
            chunkSlice (l.drop csize) cs csize := by
        intro cs hcs'
        have hb := pythonRange_mem csize hcs (l.length - csize) 0 cs hcs'
        simp only [Function.comp_apply]
        unfold chunkSlice
        rw [List.drop_drop, List.length_drop]
        have harith : min (cs + csize + csize) l.length - (cs + csize) =
            min (cs + csize) (l.length - csize) - cs := by omega
        rw [Nat.add_comm cs csize] at harith ⊢
        rw [harith]
      rw [List.map_congr_left hcong]
      have hrest : (pythonRange 0 (l.length - csize) csize).map
          (fun cs => chunkSlice (l.drop csize) cs csize) =
          chunksOf (l.drop csize) csize := by
        unfold chunksOf
        rw [List.length_drop]
      rw [hrest, ih (l.drop csize) (by simp only [List.length_drop]; omega)]
      exact List.take_append_drop csize l
    · have h0 : l = [] := by
        cases l with
        | nil => rfl
        | cons a t => simp at hpos
      subst h0
      have hr : pythonRange 0 0 csize = [] := by
        rw [pythonRange_eq _ _ _ hcs]
        simp
      unfold chunksOf
      rw [List.length_nil, hr]
      rfl

set_option maxRecDepth 100000 in
/-- C3: for every page range and positive chunk size, the chunking loop's
slices partition the page list exactly (their concatenation is the page
list itself, so the chunks are contiguous, non-overlapping, gap-free and in
ascending order); for start=1, end=120, chunk-size=50 the chunks are
precisely the page-id ranges 1-50, 51-100, 101-120. -/
theorem c3_chunk_partition (start e csize : Nat) (hcs : 1 ≤ csize) :
    (chunksOf (pageNumbers start e) csize).flatten = pageNumbers start e ∧
    chunksOf (pageNumbers 1 120) 50 =
      [List.range' 1 50, List.range' 51 50, List.range' 101 20] :=
  ⟨chunksOf_flatten csize hcs (pageNumbers start e), by decide⟩

theorem c3_chunk_partition_witness :
    (chunksOf (pageNumbers 1 120) 50).flatten = pageNumbers 1 120 ∧
    chunksOf (pageNumbers 1 120) 50 =
      [List.range' 1 50, List.range' 51 50, List.range' 101 20] :=
  c3_chunk_partition 1 120 50 (by omega)

/-- The chunk loop of `main` (lines 309-352) with its interruption point
made explicit: a `KeyboardInterrupt` arriving after chunk `idx - 1` has
completed and been merged (and before chunk `idx` is submitted) transfers
control to the handler at line 351, which stops scheduling chunks and
proceeds to the final save with the state accumulated so far.
`signal idx = true` means the interrupt arrives just before chunk `idx`
starts. -/
def runWithSignal (signal : Nat → Bool) :
    RunState → List (List (List Entry)) → Nat → RunState
  | st, [], _ => st
  | st, c :: rest, idx =>
    if signal idx then st
    else runWithSignal signal (acceptPages st c) rest (idx + 1)

theorem runWithSignal_take (signal : Nat → Bool) (k : Nat) :
    ∀ (chunks : List (List (List Entry))) (st : RunState) (idx : Nat),
    idx ≤ k → (∀ j, idx ≤ j → j < k → signal j = false) → signal k = true →
    runWithSignal signal st chunks idx = runChunks st (chunks.take (k - idx))
    := by
  intro chunks
  induction chunks with
  | nil =>
    intro st idx _ _ _
    simp [runWithSignal, runChunks]
  | cons c rest ih =>
    intro st idx hik hb hk
    by_cases hs : signal idx = true
    · have hkidx : k = idx := by
        by_contra hne
        have hlt : idx < k := by omega
        rw [hb idx (le_refl _) hlt] at hs
        exact Bool.false_ne_true hs
      subst hkidx
      simp [runWithSignal, hs, runChunks]
    · have hne : idx ≠ k := by
        intro h
        exact hs (h ▸ hk)
      have hlt : idx < k := by omega
      have hrec := ih (acceptPages st c) (idx + 1) (by omega)
        (fun j hj1 hj2 => hb j (by omega) hj2) hk
      have hstep : runWithSignal signal st (c :: rest) idx =
          runWithSignal signal (acceptPages st c) rest (idx + 1) := by
        simp [runWithSignal, hs]
      rw [hstep, hrec]
      have htake : (c :: rest).take (k - idx) = c :: rest.take (k - (idx + 1))
          := by
        have : k - idx = (k - (idx + 1)) + 1 := by omega
        rw [this, List.take_succ_cons]
      rw [htake]
      rfl

/-- C4: if the user cancellation signal is received after chunk `i` has
completed and been merged (and before chunk `i+1` starts), the run stops
scheduling further chunks, the accumulated state that the final save writes
equals exactly the globally deduplicated union of the first `i` chunks, and
no record from any later chunk appears in it. -/
theorem c4_interruption_checkpoint (signal : Nat → Bool)
    (chunks : List (List (List Entry))) (i : Nat)
    (hb : ∀ j, j < i → signal j = false) (hi : signal i = true) :
    runWithSignal signal initState chunks 0 =
      runChunks initState (chunks.take i) ∧
    ∀ e ∈ (runWithSignal signal initState chunks 0).acc,
      e ∈ (chunks.take i).flatten.flatten := by
  have heq := runWithSignal_take signal i chunks initState 0 (by omega)
    (fun j _ hj => hb j hj) hi
  rw [Nat.sub_zero] at heq
  refine ⟨heq, ?_⟩
  intro e he
  rw [heq] at he
  have hinv := (acceptInv_runChunks (chunks.take i)).2.2.2 e he
  exact List.mem_of_find?_eq_some hinv

theorem c4_interruption_checkpoint_witness :
    runWithSignal (fun j => j == 1) initState
        [[[entryLit]], [[entryLitSpaced]]] 0 =
      runChunks initState ([[[entryLit]], [[entryLitSpaced]]].take 1) ∧
    ∀ e ∈ (runWithSignal (fun j => j == 1) initState
        [[[entryLit]], [[entryLitSpaced]]] 0).acc,
      e ∈ (([[[entryLit]], [[entryLitSpaced]]] :
        List (List (List Entry))).take 1).flatten.flatten :=
  c4_interruption_checkpoint (fun j => j == 1)
    [[[entryLit]], [[entryLitSpaced]]] 1
    (fun j hj => by
      have hj0 : j = 0 := by omega
      subst hj0
      rfl)
    rfl

theorem digitChar_isDigit {m : Nat} (h : m < 10) :
    (Nat.digitChar m).isDigit = true := by
  interval_cases m <;> decide

theorem digitChar_toNat {m : Nat} (h : m < 10) :
    (Nat.digitChar m).toNat - 48 = m := by
  interval_cases m <;> decide

theorem decRepr_digits (n : Nat) : ∀ c ∈ decRepr n, c.isDigit = true := by
  induction n using Nat.strong_induction_on with
  | _ n ih =>
    rw [decRepr_eq]
    by_cases hn : n < 10
    · simp only [hn, if_pos, List.mem_singleton]
      intro c hc
      subst hc
      exact digitChar_isDigit hn
    · have hd : n / 10 < n := Nat.div_lt_self (by omega) (by omega)
      simp only [hn, if_neg, not_false_iff]
      intro c hc
      rcases List.mem_append.1 hc with hc | hc
      · exact ih (n / 10) hd c hc
      · simp only [List.mem_singleton] at hc
        subst hc
        exact digitChar_isDigit (Nat.mod_lt n (by omega))

theorem digitsVal_append (xs : PyStr) (c : Char) :
    digitsVal (xs ++ [c]) = 10 * digitsVal xs + (c.toNat - 48) := by
  unfold digitsVal
  rw [List.foldl_append]
  rfl

theorem digitsVal_decRepr (n : Nat) : digitsVal (decRepr n) = n := by
  induction n using Nat.strong_induction_on with
  | _ n ih =>
    rw [decRepr_eq]
    by_cases hn : n < 10
    · simp only [hn, if_pos]
      show 10 * 0 + ((Nat.digitChar n).toNat - 48) = n
      rw [digitChar_toNat hn]
      omega
    · have hd : n / 10 < n := Nat.div_lt_self (by omega) (by omega)
      simp only [hn, if_neg, not_false_iff]
      rw [digitsVal_append, ih (n / 10) hd,
        digitChar_toNat (Nat.mod_lt n (by omega))]
      omega

theorem decRepr_inj {m n : Nat} (h : decRepr m = decRepr n) : m = n := by
  have h1 := digitsVal_decRepr m
  rw [h, digitsVal_decRepr] at h1
  omega

/-- A decimal digit string followed by a dash determines the digit string:
the dash cannot occur among the digits. -/
theorem digits_dash_split : ∀ (a b u v : PyStr),
    (∀ c ∈ a, c.isDigit = true) → (∀ c ∈ b, c.isDigit = true) →
    a ++ '-' :: u = b ++ '-' :: v → a = b ∧ u = v := by
  intro a
  induction a with
  | nil =>
    intro b u v _ hb h
    cases b with
    | nil =>
      simp only [List.nil_append] at h
      exact ⟨rfl, by injection h⟩
    | cons d b' =>
      simp only [List.nil_append, List.cons_append] at h
      have hd : d = '-' := by injection h with h1 _; exact h1.symm
      have := hb d (by simp)
      rw [hd] at this
      simp at this
  | cons c a' ih =>
    intro b u v ha hb h
    cases b with
    | nil =>
      simp only [List.nil_append, List.cons_append] at h
      have hc : c = '-' := (List.cons.inj h).1
      have := ha c (by simp)
      rw [hc] at this
      simp at this
    | cons d b' =>
      simp only [List.cons_append] at h
      injection h with h1 h2
      obtain ⟨hab, huv⟩ := ih b' u v (fun x hx => ha x (by simp [hx]))
        (fun x hx => hb x (by simp [hx])) h2
      exact ⟨by rw [h1, hab], huv⟩

/-- The chunk checkpoint filename built at line 347:
`f"{os.path.splitext(args.output)[0]}_chunk{chunk_start}-{chunk_end}.csv"`.
`base` is the output path minus its extension; `cs` and `ce` are the
0-based slice offsets `chunk_start` and `chunk_end` into `page_numbers`
(not page identifiers). -/
def chunkFileName (base : PyStr) (cs ce : Nat) : PyStr :=
  base ++ "_chunk".data ++ decRepr cs ++ "-".data ++ decRepr ce ++ ".csv".data

/-- The checkpoint filenames the run produces, one per chunk, in chunk
order (lines 311-347). -/
def mainChunkFiles (base : PyStr) (start e csize : Nat) : List PyStr :=
  (pythonRange 0 (pageNumbers start e).length csize).map
    (fun cs =>
      chunkFileName base cs (min (cs + csize) (pageNumbers start e).length))

theorem chunkFileName_inj (base : PyStr) {cs1 ce1 cs2 ce2 : Nat}
    (h : chunkFileName base cs1 ce1 = chunkFileName base cs2 ce2) :
    cs1 = cs2 ∧ ce1 = ce2 := by
  unfold chunkFileName at h
  simp only [List.append_assoc] at h
  have h2 := List.append_cancel_left (List.append_cancel_left h)
  have h3 : decRepr cs1 ++ '-' :: (decRepr ce1 ++ ".csv".data) =
      decRepr cs2 ++ '-' :: (decRepr ce2 ++ ".csv".data) := by
    simpa using h2
  obtain ⟨hcs, hrest⟩ := digits_dash_split _ _ _ _
    (decRepr_digits cs1) (decRepr_digits cs2) h3
  have hce := List.append_cancel_right hrest
  exact ⟨decRepr_inj hcs, decRepr_inj hce⟩

theorem pythonRange_pairwise_lt (step : Nat) (hstep : 1 ≤ step) :
    ∀ stop s, (pythonRange s stop step).Pairwise (· < ·) := by
  intro stop
  have key : ∀ d s, stop - s ≤ d → (pythonRange s stop step).Pairwise (· < ·)
      := by
    intro d
    induction d with
    | zero =>
      intro s hle
      rw [pythonRange_eq s stop step hstep]
      have hs : ¬ s < stop := by omega
      simp [hs]
    | succ d ih =>
      intro s hle
      rw [pythonRange_eq s stop step hstep]
      by_cases hs : s < stop
      · simp only [hs, if_pos]
        rw [List.pairwise_cons]
        refine ⟨?_, ih (s + step) (by omega)⟩
        intro x hx
        have := pythonRange_mem step hstep stop (s + step) x hx
        omega
      · simp [hs]
  intro s
  exact key (stop - s) s (by omega)

set_option maxRecDepth 100000 in
/-- C5 counterexample: in the run start=1, end=120, chunk-size=50 with
output base `out`, the first chunk's pages are the page identifiers 1..50,
yet its checkpoint artifact is named with the 0-based slice offsets
(`out_chunk0-50.csv`), not with the chunk's first and last page identifiers
as the claim states (`out_chunk1-50.csv`, which is what the claim's naming
formula produces at s = 1, e = 50). -/
theorem c5_counterexample :
    mainChunkFiles "out".data 1 120 50 =
      ["out_chunk0-50.csv".data, "out_chunk50-100.csv".data,
        "out_chunk100-120.csv".data] ∧
    chunkSlice (pageNumbers 1 120) 0 50 = List.range' 1 50 ∧
    chunkFileName "out".data 1 50 = "out_chunk1-50.csv".data ∧
    "out_chunk0-50.csv".data ≠ "out_chunk1-50.csv".data := by
  refine ⟨by decide, by decide, by decide, by decide⟩

/-- C5 (amended): each chunk's checkpoint artifact is named
`{base}_chunk{cs}-{ce}.csv` where `cs` is the chunk's 0-based start offset
into the run's page list and `ce = min(cs + chunk_size, page count)` its
exclusive end offset (so for a run starting at page 1 the offsets are one
less than the page identifiers), and these names are pairwise distinct
across the run's chunks. -/
theorem c5_amended_chunk_names (base : PyStr) (start e csize : Nat)
    (hcs : 1 ≤ csize) :
    mainChunkFiles base start e csize =
      (pythonRange 0 (pageNumbers start e).length csize).map
        (fun cs => base ++ "_chunk".data ++ decRepr cs ++ "-".data ++
          decRepr (min (cs + csize) (pageNumbers start e).length) ++
          ".csv".data) ∧
    (mainChunkFiles base start e csize).Pairwise (· ≠ ·) := by
  constructor
  · rfl
  · unfold mainChunkFiles
    rw [List.pairwise_map]
    apply List.Pairwise.imp ?_
      (pythonRange_pairwise_lt csize hcs (pageNumbers start e).length 0)
    intro a b hab hcontra
    have := (chunkFileName_inj base hcontra).1
    omega

set_option maxRecDepth 100000 in
theorem c5_amended_chunk_names_witness :
    mainChunkFiles "out".data 1 120 50 =
      (pythonRange 0 (pageNumbers 1 120).length 50).map
        (fun cs => "out".data ++ "_chunk".data ++ decRepr cs ++ "-".data ++
          decRepr (min (cs + 50) (pageNumbers 1 120).length) ++
          ".csv".data) ∧
    (mainChunkFiles "out".data 1 120 50).Pairwise (· ≠ ·) :=
  c5_amended_chunk_names "out".data 1 120 50 (by omega)

/-- Character classes occurring in the date regexes of `extract_date`
(lines 96-100): `\w`, `\s`, `\d` and `[\w\s]` (ASCII reading, which covers
the attribution strings). -/
inductive CharCls where
  | word : CharCls
  | space : CharCls
  | digit : CharCls
  | wordspace : CharCls
deriving DecidableEq

def clsMatch : CharCls → Char → Bool
  | CharCls.word, c => c.isAlphanum || c == '_'
  | CharCls.space, c => c.isWhitespace
  | CharCls.digit, c => c.isDigit
  | CharCls.wordspace, c => c.isAlphanum || c == '_' || c.isWhitespace

/-- One element of a regular expression: a literal character, or a
character class under a greedy counted quantifier with lower bound `lo`
and optional upper bound `hi` (`\w+` is `cls word 1 none`, `\d{1,2}` is
`cls digit 1 (some 2)`, `\d{4}` is `cls digit 4 (some 4)`). -/
inductive RElem where
  | lit : Char → RElem
  | cls : CharCls → Nat → Option Nat → RElem
deriving DecidableEq

/-- Backtracking matcher with continuation `k`, following Python `re`
semantics for these alternation-free patterns: elements match left to
right; a greedy quantifier first consumes the longest possible run of its
class and backtracks to shorter runs when the continuation fails. -/
def matchSeq : List RElem → List Char → (List Char → Option PyStr) →
    Option PyStr
  | [], s, k => k s
  | RElem.lit c :: es, s, k =>
    match s with
    | [] => none
    | c' :: rest => if c' == c then matchSeq es rest k else none
  | RElem.cls cl lo hi :: es, s, k =>
    let runMax := (s.takeWhile (clsMatch cl)).length
    let top := match hi with
      | none => runMax
      | some h => min runMax h
    if top < lo then none
    else
      (List.range (top + 1 - lo)).findSome?
        (fun i => matchSeq es (s.drop (top - i)) k)

/-- Attempt the whole pattern at one start position: match the
non-capturing prefix `pre`, then the capture group `inner` (the group is
the final element of all three date patterns); the returned string is the
text the group consumed. -/
def searchAt (pre inner : List RElem) (s : List Char) : Option PyStr :=
  matchSeq pre s (fun rest =>
    matchSeq inner rest (fun rem =>
      some (rest.take (rest.length - rem.length))))

/-- Python `re.search`: try the match at each start position, leftmost
first. -/
def reSearch (pre inner : List RElem) : List Char → Option PyStr
  | [] => searchAt pre inner []
  | c :: t =>
    match searchAt pre inner (c :: t) with
    | some cap => some cap
    | none => reSearch pre inner t

/-- The shared non-capturing prefix `(?:by\s+[\w\s]+\s+)` of the three
date patterns (lines 97-99). -/
def datePatPre : List RElem :=
  [RElem.lit 'b', RElem.lit 'y', RElem.cls CharCls.space 1 none,
   RElem.cls CharCls.wordspace 1 none, RElem.cls CharCls.space 1 none]

/-- Capture group `(\w+\s+\d{1,2},\s+\d{4})` — "Month DD, YYYY"
(line 97). -/
def datePat1 : List RElem :=
  [RElem.cls CharCls.word 1 none, RElem.cls CharCls.space 1 none,
   RElem.cls CharCls.digit 1 (some 2), RElem.lit ',',
   RElem.cls CharCls.space 1 none, RElem.cls CharCls.digit 4 (some 4)]

/-- Capture group `(\d{1,2}\s+\w+\s+\d{4})` — "DD Month YYYY"
(line 98). -/
def datePat2 : List RElem :=
  [RElem.cls CharCls.digit 1 (some 2), RElem.cls CharCls.space 1 none,
   RElem.cls CharCls.word 1 none, RElem.cls CharCls.space 1 none,
   RElem.cls CharCls.digit 4 (some 4)]

/-- Capture group `(\w+\s+\d{4})` — "Month YYYY" (line 99). -/
def datePat3 : List RElem :=
  [RElem.cls CharCls.word 1 none, RElem.cls CharCls.space 1 none,
   RElem.cls CharCls.digit 4 (some 4)]

/-- The ordered pattern list `date_patterns` (lines 96-100). -/
def datePatterns : List (List RElem) := [datePat1, datePat2, datePat3]

/-- The `for pattern in date_patterns` loop (lines 102-105): the first
pattern whose search succeeds supplies `match.group(1)`. -/
def firstPatternCapture (text : PyStr) : Option PyStr :=
  datePatterns.findSome? (fun inner => reSearch datePatPre inner text)

/-- The fallback at lines 107-112:
`" ".join(text.split("by ")[1].split(" ")[2:])`, with an `IndexError`
(fewer than two pieces around `"by "`) caught and turned into `""`. -/
def dateFallback (text : PyStr) : PyStr :=
  match (pySplit "by ".data text).get? 1 with
  | none => []
  | some p => pyJoin " ".data ((pySplit " ".data p).drop 2)

/-- `extract_date` (lines 88-112): empty input yields `""`; otherwise the
first matching pattern's capture group; otherwise the split fallback. -/
def extract_date (text : PyStr) : PyStr :=
  if text.isEmpty then []
  else
    match firstPatternCapture text with
    | some d => d
    | none => dateFallback text

/-- The contributor computation of `scrape_page` (lines 219-223):
`contributor_text.replace(date, "")` when a date was parsed (all
occurrences), then `.replace("by", "")` (all occurrences), then
`.strip()`. -/
def contributorOf (contributor_text : PyStr) : PyStr :=
  let date := extract_date contributor_text
  let c1 := if date.isEmpty then contributor_text
    else pyReplace date [] contributor_text
  pyStrip (pyReplace "by".data [] c1)

/-- The selector loop of `extract_votes` (lines 128-138).  `sel` lists, in
order, each selector's element text (`none` when the element lookup raises
and the loop continues without assigning).  Each retrieved text is
stripped and kept in `vote_text`; the loop breaks early on a non-empty
all-digit text, otherwise the last retrieved text survives the loop. -/
def votesLoop : List (Option PyStr) → PyStr → PyStr
  | [], vt => vt
  | s :: rest, vt =>
    match s with
    | none => votesLoop rest vt
    | some t =>
      if !(pyStrip t).isEmpty && pyIsDigit (pyStrip t) then pyStrip t
      else votesLoop rest (pyStrip t)

/-- `extract_votes` (lines 114-143): run the selector loop from the empty
initial `vote_text`, then `int(vote_text)` with `ValueError` (and
`AttributeError`) defaulting to 0. -/
def extract_votes (sel : List (Option PyStr)) : Int :=
  match pyInt (votesLoop sel []) with
  | some n => n
  | none => 0

/-- The record built for one definition element (lines 193-241), given the
raw texts its selectors produced: the word, meaning and example texts, the
raw contributor attribution, the two vote-selector text lists, the page
number and the scrape date. -/
def buildEntry (word meaning ex contributor_text : PyStr)
    (upSel downSel : List (Option PyStr)) (page : Nat)
    (scrapedDate : PyStr) : Entry :=
  { word := word
    definition := meaning
    exampleText := ex
    contributor := contributorOf contributor_text
    date := extract_date contributor_text
    upvotes := extract_votes upSel
    downvotes := extract_votes downSel
    page := page
    scraped_date := scrapedDate }

set_option maxRecDepth 1000000 in
/-- C6 counterexample: on `"by a b c"` no pattern of the ordered list
matches, yet `extract_date` returns `"c"` (the fallback split result)
rather than the empty string the claim requires. -/
theorem c6_counterexample :
    firstPatternCapture "by a b c".data = none ∧
    extract_date "by a b c".data = "c".data ∧
    "c".data ≠ ([] : PyStr) := by
  refine ⟨by decide, by decide, by decide⟩

/-- C6 (amended): for non-empty input, `extract_date` returns the capture
of the first matching pattern of its ordered pattern list; when no pattern
matches it does not return the empty string in general but the fallback
`" ".join(text.split("by ")[1].split(" ")[2:])`, which yields the empty
string only when the split fails or produces no words past the second. -/
theorem c6_extract_date_first_pattern (text : PyStr)
    (hne : text.isEmpty = false) :
    (∀ d, reSearch datePatPre datePat1 text = some d →
      extract_date text = d) ∧
    (reSearch datePatPre datePat1 text = none →
      ∀ d, reSearch datePatPre datePat2 text = some d →
        extract_date text = d) ∧
    (reSearch datePatPre datePat1 text = none →
      reSearch datePatPre datePat2 text = none →
      ∀ d, reSearch datePatPre datePat3 text = some d →
        extract_date text = d) ∧
    (reSearch datePatPre datePat1 text = none →
      reSearch datePatPre datePat2 text = none →
      reSearch datePatPre datePat3 text = none →
      extract_date text = dateFallback text) := by
  refine ⟨?_, ?_, ?_, ?_⟩
  · intro d hd
    simp [extract_date, hne, firstPatternCapture, datePatterns,
      List.findSome?, hd]
  · intro h1 d hd
    simp [extract_date, hne, firstPatternCapture, datePatterns,
      List.findSome?, h1, hd]
  · intro h1 h2 d hd
    simp [extract_date, hne, firstPatternCapture, datePatterns,
      List.findSome?, h1, h2, hd]
  · intro h1 h2 h3
    simp [extract_date, hne, firstPatternCapture, datePatterns,
      List.findSome?, h1, h2, h3]

set_option maxRecDepth 1000000 in
theorem c6_extract_date_first_pattern_witness :
    extract_date "by john smith March 4, 2020".data =
      "March 4, 2020".data :=
  (c6_extract_date_first_pattern "by john smith March 4, 2020".data
    (by decide)).1 "March 4, 2020".data (by decide)

/-- Iteration core of `replaceFirst` (fuel-bounded scan). -/
def replaceFirstGo (pat rep : PyStr) : Nat → PyStr → PyStr
  | 0, s => s
  | fuel + 1, s =>
    match s with
    | [] => []
    | c :: rest =>
      if ¬ pat.isEmpty ∧ pat.isPrefixOf (c :: rest) then
        rep ++ (c :: rest).drop pat.length
      else
        c :: replaceFirstGo pat rep fuel rest

/-- Replace only the first occurrence of `pat`. -/
def replaceFirst (pat rep s : PyStr) : PyStr := replaceFirstGo pat rep s.length s

/-- The contributor value the C7 claim prescribes, stated from the claim's
words for comparison with `contributorOf`: the attribution with the parsed
date substring removed (the one parsed occurrence), a single leading
marker word `by` removed, and surrounding whitespace trimmed — no other
characters removed. -/
def specContributor (text : PyStr) : PyStr :=
  let date := extract_date text
  let c1 := if date.isEmpty then text else replaceFirst date [] text
  pyStrip (if "by".data.isPrefixOf c1 then c1.drop 2 else c1)

set_option maxRecDepth 1000000 in
/-- C7 counterexample: for the attribution `"by Abby March 2020"` the code
produces contributor `"Ab"`: `.replace("by", "")` removes every occurrence
of `"by"`, including the one inside the name `"Abby"`, whereas the claim
(remove the date substring and a single leading `by` only, no other
characters) prescribes `"Abby"`. -/
theorem c7_counterexample :
    extract_date "by Abby March 2020".data = "March 2020".data ∧
    contributorOf "by Abby March 2020".data = "Ab".data ∧
    specContributor "by Abby March 2020".data = "Abby".data ∧
    contributorOf "by Abby March 2020".data ≠
      specContributor "by Abby March 2020".data := by
  refine ⟨by decide, by decide, by decide, by decide⟩

/-- C7 (amended): the record's contributor field equals the raw
attribution with every occurrence of the parsed date substring removed
(when a date was parsed) and every occurrence of the two-character
substring `by` removed — not just a single leading marker — and the result
trimmed; the record's date field is the parsed date. -/
theorem c7_contributor_field (word meaning ex contributor_text : PyStr)
    (upSel downSel : List (Option PyStr)) (page : Nat) (scrapedDate : PyStr) :
    (buildEntry word meaning ex contributor_text upSel downSel page
        scrapedDate).contributor =
      pyStrip (pyReplace "by".data []
        (if (extract_date contributor_text).isEmpty then contributor_text
         else pyReplace (extract_date contributor_text) []
           contributor_text)) ∧
    (buildEntry word meaning ex contributor_text upSel downSel page
        scrapedDate).date = extract_date contributor_text :=
  ⟨rfl, rfl⟩

theorem digit_not_ws {c : Char} (h : c.isDigit = true) :
    c.isWhitespace = false := by
  cases hw : c.isWhitespace with
  | false => rfl
  | true =>
    exfalso
    simp [Char.isWhitespace] at hw
    rcases hw with ((rfl | rfl) | rfl) | rfl <;> exact absurd h (by decide)

theorem pyStrip_of_digits {s : PyStr} (h : s.all Char.isDigit = true) :
    pyStrip s = s := by
  have hmem : ∀ c ∈ s, c.isWhitespace = false := by
    intro c hc
    rw [List.all_eq_true] at h
    exact digit_not_ws (h c hc)
  have h1 : s.dropWhile Char.isWhitespace = s := by
    cases s with
    | nil => rfl
    | cons c t =>
      rw [List.dropWhile_cons, hmem c (by simp)]
      simp
  have h2 : s.reverse.dropWhile Char.isWhitespace = s.reverse := by
    cases hs : s.reverse with
    | nil => rfl
    | cons c t =>
      have hc : c ∈ s := by
        rw [← List.mem_reverse, hs]
        simp
      rw [List.dropWhile_cons, hmem c hc]
      simp
  unfold pyStrip
  rw [h1, h2, List.reverse_reverse]

theorem pyInt_of_digits {s : PyStr} (h : pyIsDigit s = true) :
    pyInt s = some ((digitsVal s : Nat) : Int) := by
  have hparts := h
  unfold pyIsDigit at hparts
  rw [Bool.and_eq_true] at hparts
  have hall : s.all Char.isDigit = true := hparts.2
  have hne : s ≠ [] := by
    intro he
    subst he
    simp at hparts
  have hstrip : pyStrip s = s := pyStrip_of_digits hall
  unfold pyInt
  rw [hstrip]
  cases s with
  | nil => exact absurd rfl hne
  | cons c t =>
    have hcd : c.isDigit = true := by
      rw [List.all_eq_true] at hall
      exact hall c (by simp)
    split
    · rename_i heq
      exact absurd heq (by simp)
    · rename_i ds heq
      have hc : c = '-' := (List.cons.inj heq).1
      subst hc
      exact absurd hcd (by decide)
    · rename_i ds heq
      have hc : c = '+' := (List.cons.inj heq).1
      subst hc
      exact absurd hcd (by decide)
    · rw [h]
      simp

theorem votesLoop_ok : ∀ (sel : List (Option PyStr)) (vt : PyStr),
    (∀ t, some t ∈ sel → pyStrip t = [] ∨ pyIsDigit (pyStrip t) = true) →
    (vt = [] ∨ pyIsDigit vt = true) →
    votesLoop sel vt = [] ∨ pyIsDigit (votesLoop sel vt) = true := by
  intro sel
  induction sel with
  | nil =>
    intro vt _ hvt
    simpa [votesLoop] using hvt
  | cons s rest ih =>
    intro vt hsel hvt
    cases s with
    | none =>
      simp only [votesLoop]
      exact ih vt (fun t ht => hsel t (by simp [ht])) hvt
    | some t =>
      have hst := hsel t (by simp)
      simp only [votesLoop]
      by_cases hbr : (!(pyStrip t).isEmpty && pyIsDigit (pyStrip t)) = true
      · rw [if_pos hbr]
        right
        have hbr2 : (!(pyStrip t).isEmpty) = true ∧
            pyIsDigit (pyStrip t) = true := by
          rw [Bool.and_eq_true] at hbr
          exact hbr
        exact hbr2.2
      · rw [if_neg hbr]
        exact ih (pyStrip t) (fun t' ht' => hsel t' (by simp [ht'])) hst

/-- C8 counterexample: when every selector's text is `"-5"` (not a digit
string, so the break never fires, and the last text is kept), `int("-5")`
succeeds and `extract_votes` returns the negative value -5, contradicting
the claim that it always returns a non-negative integer and 0 on any text
that is not a decimal digit string. -/
theorem c8_counterexample :
    extract_votes [some "-5".data, some "-5".data, some "-5".data] = -5 ∧
    extract_votes [some "-5".data, some "-5".data, some "-5".data] < 0 := by
  refine ⟨by decide, by decide⟩

/-- C8 (amended): `extract_votes` returns 0 whenever the text retained by
the selector loop cannot be parsed by `int(...)`, and returns a
non-negative integer whenever every selector text strips to the empty
string or to a decimal digit string; but a retained text that parses as a
negative number (such as `"-5"`) is returned negative. -/
theorem c8_votes_amended (sel : List (Option PyStr)) :
    (pyInt (votesLoop sel []) = none → extract_votes sel = 0) ∧
    ((∀ t, some t ∈ sel → pyStrip t = [] ∨ pyIsDigit (pyStrip t) = true) →
      0 ≤ extract_votes sel) := by
  constructor
  · intro h
    unfold extract_votes
    rw [h]
  · intro hsel
    have hok := votesLoop_ok sel [] hsel (Or.inl rfl)
    rcases hok with h | h
    · have h0 : pyInt ([] : PyStr) = none := rfl
      unfold extract_votes
      rw [h, h0]
    · have hsome := pyInt_of_digits h
      unfold extract_votes
      rw [hsome]
      exact Int.natCast_nonneg _

theorem c8_votes_amended_witness :
    0 ≤ extract_votes [some "12".data] := by
  apply (c8_votes_amended [some "12".data]).2
  intro t ht
  simp only [List.mem_singleton, Option.some.injEq] at ht
  subst ht
  right
  decide

/-- The fixed CSV schema of `save_to_csv` (lines 267-268). -/
def fieldnames : List PyStr :=
  ["word".data, "definition".data, "example".data, "contributor".data,
   "date".data, "upvotes".data, "downvotes".data, "page".data,
   "scraped_date".data]

/-- The row `csv.DictWriter` writes for one entry (line 275): the entry's
values in `fieldnames` order, with the integer-valued fields rendered in
decimal. -/
def entryRow (e : Entry) : List PyStr :=
  [e.word, e.definition, e.exampleText, e.contributor, e.date,
   pyIntStr e.upvotes, pyIntStr e.downvotes, decRepr e.page, e.scraped_date]

/-- `save_to_csv` (lines 259-280): an empty entry list writes no artifact
(warning only); otherwise the artifact is the header row followed by one
row per entry. -/
def save_to_csv (entries : List Entry) : Option (List (List PyStr)) :=
  if entries.isEmpty then none
  else some (fieldnames :: entries.map entryRow)

/-- The per-chunk checkpoint artifact for a chunk's deduplicated entries
(lines 346-348). -/
def chunkArtifact (chunk_entries : List Entry) : Option (List (List PyStr)) :=
  save_to_csv chunk_entries

/-- The end-of-run artifact for the accumulated deduplicated entries
(line 355). -/
def finalArtifact (all_entries : List Entry) : Option (List (List PyStr)) :=
  save_to_csv all_entries

/-- C9: every artifact (per-chunk and final) consists of the fixed header
`word, definition, example, contributor, date, upvotes, downvotes, page,
scraped_date` followed by one row per record with exactly one value per
header column in that order, and both artifact kinds are produced by the
same writer `save_to_csv`. -/
theorem c9_schema_stability (entries : List Entry) (hne : entries ≠ []) :
    chunkArtifact entries = save_to_csv entries ∧
    finalArtifact entries = save_to_csv entries ∧
    save_to_csv entries = some (fieldnames :: entries.map entryRow) ∧
    (∀ row ∈ entries.map entryRow, row.length = fieldnames.length) ∧
    fieldnames =
      ["word".data, "definition".data, "example".data, "contributor".data,
       "date".data, "upvotes".data, "downvotes".data, "page".data,
       "scraped_date".data] := by
  refine ⟨rfl, rfl, ?_, ?_, rfl⟩
  · unfold save_to_csv
    have hie : entries.isEmpty = false := by
      cases entries with
      | nil => exact absurd rfl hne
      | cons a t => rfl
    rw [hie]
    rfl
  · intro row hrow
    rw [List.mem_map] at hrow
    obtain ⟨e, _, he⟩ := hrow
    subst he
    rfl

theorem c9_schema_stability_witness :
    chunkArtifact [entryLit] = save_to_csv [entryLit] ∧
    finalArtifact [entryLit] = save_to_csv [entryLit] ∧
    save_to_csv [entryLit] = some (fieldnames :: [entryLit].map entryRow) ∧
    (∀ row ∈ [entryLit].map entryRow, row.length = fieldnames.length) ∧
    fieldnames =
      ["word".data, "definition".data, "example".data, "contributor".data,
       "date".data, "upvotes".data, "downvotes".data, "page".data,
       "scraped_date".data] :=
  c9_schema_stability [entryLit] (by simp)
